import Mathlib

/-!
Verification of the template parser of `tempy.py` (class `Parser` and the
instruction-building part of `compile`/`render`).

The embedding models Python strings as `List Char` and the two compiled
regular expressions (`Parser._re_tok`, `Parser._re_split`) as explicit
leftmost-match scanners, with each regex alternative translated to its own
matching function, preserving alternative order, greedy/lazy quantifier
behaviour and the `re.MULTILINE` treatment of `^` (which matches at the
start of the searched slice and after each newline character).

The parser is translated with the default delimiter configuration
(`block_start='<%'`, `block_end='%>'`, `inline_start` two left braces,
`inline_end` two right braces), the configuration used by `render` and by
`compile`'s defaults.  Whitespace classes are the ASCII fragment of
Python's `\s` / `str.strip()` set (identical sets: space, tab, newline,
carriage return, vertical tab, form feed, and the four separator control
characters 0x1c-0x1f); templates containing non-ASCII whitespace are
outside the scope of this development.

Emitted instruction lines are modelled as pairs of the indentation level
(an `Int`, as in the source, where `'  ' * n` renders a negative level as
no indentation) and a `Body` recording which of the three line formats of
the source produced the line:
  * `Body.appendLit t`   for `'{0}.append({1!r})'.format(listname, text)`
  * `Body.appendEval e`  for `'{0}.append(str(eval({1!r})))'` lines
  * `Body.stmt c`        for a raw statement line passed verbatim
The loops of `Parser.parse` and `Parser._parse_code` are written with a
fuel parameter so that every function is structurally recursive and
computable by the kernel; fuel exhaustion is reported by the dedicated
error value `Err.fuelOut`, and the top-level entry points supply
`length + 1` fuel, which is proved sufficient (`parse_no_fuelOut`).
-/

namespace Tempy

/-- The single-quote character (avoiding a quote literal in source text). -/
def squote : Char := Char.ofNat 39

/-- The double-quote character. -/
def dquote : Char := Char.ofNat 34

/-- The backslash character (the escape character of the template syntax). -/
def bslash : Char := Char.ofNat 92

/-- Left curly brace. -/
def lbrace : Char := Char.ofNat 123

/-- Right curly brace. -/
def rbrace : Char := Char.ofNat 125

/-- Convert a Lean string literal to the character-list model. -/
def s2l (s : String) : List Char := s.data

/-- ASCII fragment of Python's whitespace class: `str.strip()` with no
arguments and the regex class `\s` strip/match exactly this set of ASCII
characters (verified against CPython). -/
def isPySpace (c : Char) : Bool :=
  c = ' ' || c = '\t' || c = '\n' || c = '\r' || c = Char.ofNat 11 ||
  c = Char.ofNat 12 || c = Char.ofNat 28 || c = Char.ofNat 29 ||
  c = Char.ofNat 30 || c = Char.ofNat 31

/-- The regex class `[ \t]` used around keywords in `_re_tok`. -/
def isSpaceTab (c : Char) : Bool := c = ' ' || c = '\t'

/-- ASCII fragment of the regex class `\w` (letters, digits, underscore). -/
def isWordChar (c : Char) : Bool := c.isAlphanum || c = '_'

/-- Python `str.lstrip()`. -/
def pyLstrip (s : List Char) : List Char := s.dropWhile isPySpace

/-- Python `str.rstrip()`. -/
def pyRstrip (s : List Char) : List Char := (s.reverse.dropWhile isPySpace).reverse

/-- Python `str.strip()`. -/
def pyStrip (s : List Char) : List Char := pyLstrip (pyRstrip s)

/-- Default `inline_start` marker (two left braces). -/
def inlineStartM : List Char := [lbrace, lbrace]

/-- Default `inline_end` marker (two right braces). -/
def inlineEndM : List Char := [rbrace, rbrace]

/-- Default `block_start` marker `<%`. -/
def blockStartM : List Char := ['<', '%']

/-- Default `block_end` marker `%>`. -/
def blockEndM : List Char := ['%', '>']

/-- Match a literal pattern at the head of the input, returning the rest. -/
def matchLit : List Char → List Char → Option (List Char)
  | [], s => some s
  | p :: ps, c :: cs => if c = p then matchLit ps cs else none
  | _ :: _, [] => none

/-- String-kind prefix letters of `_re_tok` alternative 1: `[urbURB]`. -/
def isStrKindChar (c : Char) : Bool :=
  c = 'u' || c = 'r' || c = 'b' || c = 'U' || c = 'R' || c = 'B'

/-- Lazy body of a single-line quoted string, regex `(?:[^\\q]|\\.)+?q`
for quote character `q` (`.` does not match a newline).  Called with
`first = true` directly after the opening quote, where at least one
content unit is required before the closing quote may match.  Returns the
consumed text (including the closing quote) and the rest. -/
def shortGo (q : Char) (first : Bool) (s : List Char) :
    Option (List Char × List Char) :=
  match s with
  | [] => none
  | c :: r =>
    if first = false ∧ c = q then some ([c], r)
    else if c = bslash then
      match r with
      | [] => none
      | c2 :: r2 =>
        if c2 = '\n' then none
        else (shortGo q false r2).map (fun p => (c :: c2 :: p.1, p.2))
    else if c = q then none
    else (shortGo q false r).map (fun p => (c :: p.1, p.2))

/-- Lazy body of a triple-quoted string, regex `(?:[^\\]|\\.|\n)+?qqq`.
As in `shortGo`, `first = true` forces at least one content unit; the
class `[^\\]` also matches newlines and quote characters. -/
def tripleGo (q : Char) (first : Bool) (s : List Char) :
    Option (List Char × List Char) :=
  match s with
  | [] => none
  | c :: r =>
    if first = false ∧ s.take 3 = [q, q, q] then some ([q, q, q], s.drop 3)
    else if c = bslash then
      match r with
      | [] => none
      | c2 :: r2 =>
        if c2 = '\n' then none
        else (tripleGo q false r2).map (fun p => (c :: c2 :: p.1, p.2))
    else (tripleGo q false r).map (fun p => (c :: p.1, p.2))

/-- The eight quote forms of `_re_tok` alternative 1, tried in source
order at a position holding a quote character: empty short string with a
negative lookahead for a third quote, empty triple-quoted string (six
quotes), non-empty single-line string, non-empty triple-quoted string. -/
def quoteTok (s : List Char) : Option (List Char × List Char) :=
  match s with
  | [] => none
  | q :: r =>
    if q = squote ∨ q = dquote then
      if r.take 1 = [q] ∧ ¬(r.take 2 = [q, q]) then some ([q, q], r.drop 1)
      else if r.take 5 = [q, q, q, q, q] then some (q :: r.take 5, r.drop 5)
      else
        match shortGo q true r with
        | some (b, rest) => some (q :: b, rest)
        | none =>
          match matchLit [q, q] r with
          | some r3 => (tripleGo q true r3).map (fun p => (q :: q :: q :: p.1, p.2))
          | none => none
    else none

/-- Alternative 1 of `_re_tok`: `[urbURB]?` followed by a quote form.  The
optional prefix letter is consumed greedily; the backtracking fallback
without the prefix is kept for faithfulness (it can never succeed, as a
prefix letter is not a quote character). -/
def strTok (s : List Char) : Option (List Char × List Char) :=
  match s with
  | [] => none
  | c :: r =>
    if isStrKindChar c then
      match quoteTok r with
      | some (b, rest) => some (c :: b, rest)
      | none => quoteTok s
    else quoteTok s

/-- Alternative 2 of `_re_tok`: `(\#.*)`, a comment up to (excluding) the
next newline; `.` matches every character except the newline. -/
def comTok (s : List Char) : Option (List Char × List Char) :=
  match s with
  | [] => none
  | c :: r =>
    if c = '#' then
      some (c :: r.takeWhile (fun x => ¬(x = '\n')),
            r.dropWhile (fun x => ¬(x = '\n')))
    else none

/-- Keywords of `_re_tok` alternative 3 (block-starting), in source order. -/
def blkStartKws : List (List Char) :=
  [s2l "if", s2l "for", s2l "while", s2l "with", s2l "try", s2l "def", s2l "class"]

/-- Keywords of `_re_tok` alternative 4 (block-continuing), in source order. -/
def blkContKws : List (List Char) :=
  [s2l "elif", s2l "else", s2l "except", s2l "finally"]

/-- Try the keyword alternation `(?:kw1|kw2|...)\b` at the head of the
input: keywords in order, each followed by a word-boundary check. -/
def kwMatch : List (List Char) → List Char → Option (List Char × List Char)
  | [], _ => none
  | kw :: kws, s =>
    match matchLit kw s with
    | some rest =>
      if (match rest with | c :: _ => !(isWordChar c) | [] => true) then
        some (kw, rest)
      else kwMatch kws s
    | none => kwMatch kws s

/-- Alternatives 3 and 4 of `_re_tok` without their `^` anchor (handled by
the caller): `[ \t]*` then a keyword with word boundary.  The matched text
includes the leading spaces, as the capture group does in the source. -/
def kwTok (kws : List (List Char)) (s : List Char) :
    Option (List Char × List Char) :=
  match kwMatch kws (s.dropWhile isSpaceTab) with
  | some (kw, rest) => some (s.takeWhile isSpaceTab ++ kw, rest)
  | none => none

/-- Core of `_re_tok` alternative 5 after `(?:^|;)`:
`[ \t]*end[ \t]*(?=(?:-?&&[ \t]*)?\r?|;|\#)` (with `&&` standing for the
inline end marker).  The first branch of the lookahead consists solely of
optional pieces, so it matches the empty string at every position and the
lookahead as a whole always succeeds; the `;` and `\#` branches are
unreachable.  Consequently no check on the following characters is
performed here. -/
def endKwCore (s : List Char) : Option (List Char × List Char) :=
  match matchLit (s2l "end") (s.dropWhile isSpaceTab) with
  | some r1 =>
    some (s.takeWhile isSpaceTab ++ s2l "end" ++ r1.takeWhile isSpaceTab,
          r1.dropWhile isSpaceTab)
  | none => none

/-- The `;` branch of `_re_tok` alternative 5: the semicolon of `(?:^|;)`
is consumed into the matched text. -/
def endKwSemi (s : List Char) : Option (List Char × List Char) :=
  match s with
  | c :: r =>
    if c = ';' then (endKwCore r).map (fun p => (c :: p.1, p.2)) else none
  | [] => none

/-- Alternative 5 of `_re_tok`: `((?:^|;)[ \t]*end[ \t]*(?=...))`.  The
`^` branch is tried first when the position is a line start. -/
def endKwTok (lineStart : Bool) (s : List Char) :
    Option (List Char × List Char) :=
  if lineStart then
    match endKwCore s with
    | some p => some p
    | none => endKwSemi s
  else endKwSemi s

/-- Match `-?pat` at the head of the input (greedy optional dash).  The
dashless fallback after consuming a dash cannot succeed because no end
marker starts with a dash. -/
def dashLit (pat : List Char) (s : List Char) :
    Option (List Char × List Char) :=
  match s with
  | c :: r =>
    if c = '-' then
      match matchLit pat r with
      | some rest => some (c :: pat, rest)
      | none => none
    else (matchLit pat s).map (fun rest => (pat, rest))
  | [] => (matchLit pat s).map (fun rest => (pat, rest))

/-- Alternative 6 of `_re_tok`: `(-?inline_end | -?block_end)`.  Both end
markers are recognized, whichever region kind is being parsed. -/
def cendTok (s : List Char) : Option (List Char × List Char) :=
  match dashLit inlineEndM s with
  | some p => some p
  | none => dashLit blockEndM s

/-- Alternative 7 of `_re_tok`: `(\r?\n)`.  A lone carriage return is not
a newline token. -/
def nlTok (s : List Char) : Option (List Char × List Char) :=
  match s with
  | '\r' :: '\n' :: r => some (['\r', '\n'], r)
  | '\n' :: r => some (['\n'], r)
  | _ => none

/-- Token kinds of the scanner, one per capture group of `_re_tok`,
carrying the matched group text. -/
inductive Tok where
  | pystr (t : List Char)
  | comment (t : List Char)
  | blkStart (t : List Char)
  | blkCont (t : List Char)
  | endKw (t : List Char)
  | codeEnd (t : List Char)
  | newline (t : List Char)
deriving DecidableEq

/-- Try all seven alternatives of `_re_tok` at one position, in source
order.  `lineStart` tells whether the position is matched by `^` under
`re.MULTILINE` (start of the searched slice or right after a newline). -/
def tokAt (lineStart : Bool) (s : List Char) : Option (Tok × List Char) :=
  match strTok s with
  | some (t, r) => some (.pystr t, r)
  | none =>
  match comTok s with
  | some (t, r) => some (.comment t, r)
  | none =>
  match (if lineStart then kwTok blkStartKws s else none) with
  | some (t, r) => some (.blkStart t, r)
  | none =>
  match (if lineStart then kwTok blkContKws s else none) with
  | some (t, r) => some (.blkCont t, r)
  | none =>
  match endKwTok lineStart s with
  | some (t, r) => some (.endKw t, r)
  | none =>
  match cendTok s with
  | some (t, r) => some (.codeEnd t, r)
  | none =>
  match nlTok s with
  | some (t, r) => some (.newline t, r)
  | none => none

/-- Leftmost search of `re_tok`: scan positions left to right, returning
the skipped prefix (`src[:m.start()]`), the token and the rest
(`src[m.end():]`). -/
def reTokGo (lineStart : Bool) (acc : List Char) (s : List Char) :
    Option (List Char × Tok × List Char) :=
  match tokAt lineStart s with
  | some (t, r) => some (acc, t, r)
  | none =>
    match s with
    | [] => none
    | c :: r => reTokGo (c == '\n') (acc ++ [c]) r

/-- `self.re_tok.search(self._src)`: position 0 of the searched slice is a
line start for `^` under `re.MULTILINE`. -/
def reTokSearch (s : List Char) : Option (List Char × Tok × List Char) :=
  reTokGo true [] s

/-- Result of a successful `re_split` search:
`_re_split = r'(\\?)((inline_start-?\s*)|(block_start-?\s*))'`.
`pre` is `src[:m.start()]`, `escaped` whether group 1 matched the escape
character, `marker` the text of group 2 (start marker, optional trim
dash, greedily consumed trailing whitespace), `isInline` whether group 3
(rather than group 4) matched, `rest` is `src[m.end():]`. -/
structure SplitM where
  pre : List Char
  escaped : Bool
  marker : List Char
  isInline : Bool
  rest : List Char
deriving DecidableEq

/-- Consume the `-?\s*` tail after a start marker (greedy optional trim
dash, then greedy whitespace), returning the full group 2 text and the
rest. -/
def markerTail (start r : List Char) : List Char × List Char :=
  match r with
  | '-' :: rr => (start ++ ['-'] ++ rr.takeWhile isPySpace, rr.dropWhile isPySpace)
  | _ => (start ++ r.takeWhile isPySpace, r.dropWhile isPySpace)

/-- Match one start marker with its `-?\s*` tail, returning the group 2
text, the region kind and the rest.  The inline alternative is tried
first, as in the source pattern. -/
def markerAt (s : List Char) : Option (List Char × Bool × List Char) :=
  match matchLit inlineStartM s with
  | some r => some ((markerTail inlineStartM r).1, true, (markerTail inlineStartM r).2)
  | none =>
    match matchLit blockStartM s with
    | some r => some ((markerTail blockStartM r).1, false, (markerTail blockStartM r).2)
    | none => none

/-- Try `(\\?)(marker)` at one position: the optional escape character is
consumed greedily; if no marker follows it, the backtracking fallback
starts the marker at the escape character itself (which always fails, as
no marker starts with a backslash, but is kept for faithfulness). -/
def splitAt1 (s : List Char) : Option (Bool × List Char × Bool × List Char) :=
  match s with
  | [] => none
  | c :: r =>
    if c = bslash then
      match markerAt r with
      | some m => some (true, m)
      | none => (markerAt s).map (fun m => (false, m))
    else (markerAt s).map (fun m => (false, m))

/-- Leftmost search of `re_split`. -/
def reSplitGo (acc s : List Char) : Option SplitM :=
  match splitAt1 s with
  | some (esc, g2, inl, rest) => some ⟨acc, esc, g2, inl, rest⟩
  | none =>
    match s with
    | [] => none
    | c :: r => reSplitGo (acc ++ [c]) r

/-- `self.re_split.search(self._src)`. -/
def reSplitSearch (s : List Char) : Option SplitM := reSplitGo [] s

/-- Content of one generated instruction line, recording which of the
three line formats of the source produced it:
`appendLit t` for `'{0}.append({1!r})'.format(self.listname, text)` from
`_flush_text`, `appendEval e` for
`'{0}.append(str(eval({1!r})))'.format(self.listname, code.strip())` from
`_end_code`, and `stmt c` for a code line passed to `_write_line`
verbatim. -/
inductive Body where
  | appendLit (text : List Char)
  | appendEval (expr : List Char)
  | stmt (code : List Char)
deriving DecidableEq

/-- An emitted line of `self.out`: the indentation level at emission time
(Python renders the line as `'  ' * level + line`, where a negative level
yields no indentation) together with the line content. -/
abbrev OutLine := Int × Body

/-- The mutable scan state of `Parser`: `_src`, `_text`, `_text_rstrip`,
`_text_lstrip`, `_indent_cur`, `_indent_mod`, `_code` and `out`. -/
structure PState where
  src : List Char
  text : List (List Char)
  textRstrip : Bool
  textLstrip : Bool
  indentCur : Int
  indentMod : Int
  code : List (List Char)
  out : List OutLine
deriving DecidableEq

/-- Python's `if line:` truthiness test in `_write_line`: the formatted
`append` lines are never empty strings; a raw statement line is empty
exactly when its code is. -/
def bodyIsEmptyLine : Body → Bool
  | .stmt c => c.isEmpty
  | _ => false

/-- `Parser._write_line`: append the line (if non-empty) at the current
indentation level, then apply the pending indentation modification. -/
def writeLine (st : PState) (b : Body) : PState :=
  { st with
    out := if bodyIsEmptyLine b then st.out else st.out ++ [(st.indentCur, b)]
    indentCur := st.indentCur + st.indentMod
    indentMod := 0 }

/-- `Parser._flush_text`: join the text buffer, apply (and consume) the
pending rstrip then the pending lstrip, emit an `appendLit` line when the
result is non-empty, and reset the buffer. -/
def flushText (st : PState) : PState :=
  let t0 := st.text.flatten
  let t1 := if st.textRstrip then pyRstrip t0 else t0
  let t2 := if st.textLstrip then pyLstrip t1 else t1
  let st1 := { st with text := [], textRstrip := false, textLstrip := false }
  if t2.isEmpty then st1 else writeLine st1 (.appendLit t2)

/-- `Parser._end_code`: emit the joined code buffer (stripped statement if
a control keyword was seen, expression-append if non-blank, otherwise
nothing, for inline regions; right-stripped statement for block regions),
set the pending lstrip when the end-marker text starts with the trim
dash, and reset the code buffer. -/
def endCode (inline : Bool) (isControl : Bool) (cend : List Char)
    (st : PState) : PState :=
  let code := st.code.flatten
  let st1 :=
    if inline then
      if isControl then writeLine st (.stmt (pyStrip code))
      else if (pyStrip code).isEmpty then st
      else writeLine st (.appendEval (pyStrip code))
    else
      writeLine st (.stmt (pyRstrip code))
  let st2 := if cend.take 1 = ['-'] then { st1 with textLstrip := true } else st1
  { st2 with code := [] }

/-- Outcome of one iteration of the token loop of `_parse_code`. -/
inductive StepRes where
  | cont (isControl : Bool) (st : PState)
  | done (st : PState)
  | fail
deriving DecidableEq

/-- Token dispatch of one iteration of the loop of `Parser._parse_code`:
append the skipped prefix `pre` to the code buffer, advance the source
past the token, and act on the token.  The keyword guard of the source
(`if (_blk1 or _blk2) and self._code and self._code[-1].strip():`) tests
the last buffer fragment, which is the prefix just appended. -/
def codeTokStep (inline : Bool) (isControl : Bool) (pre : List Char)
    (tok : Tok) (rest : List Char) (st0 : PState) : StepRes :=
  let codeEndM := if inline then inlineEndM else blockEndM
  let st := { st0 with code := st0.code ++ [pre], src := rest }
  match tok with
  | .blkStart t =>
    if st.code ≠ [] ∧ ¬(pyStrip (st.code.getLastD [])).isEmpty then
      .cont isControl { st with code := st.code ++ [t] }
    else
      .cont true
        { st with
          code := st.code ++ [t]
          indentMod := if inline then st.indentMod + 1 else st.indentMod }
  | .blkCont t =>
    if st.code ≠ [] ∧ ¬(pyStrip (st.code.getLastD [])).isEmpty then
      .cont isControl { st with code := st.code ++ [t] }
    else
      .cont true
        { st with
          code := st.code ++ [t]
          indentCur := if inline then st.indentCur - 1 else st.indentCur
          indentMod := if inline then st.indentMod + 1 else st.indentMod }
  | .pystr t => .cont isControl { st with code := st.code ++ [t] }
  | .comment t =>
    let tc := pyRstrip t
    if codeEndM.isSuffixOf tc then
      .done (endCode inline isControl
        (tc.drop (tc.length - (codeEndM.length + 1))) st)
    else .cont isControl st
  | .endKw _t =>
    .cont true
      { st with
        indentMod := if inline then st.indentMod - 1 else st.indentMod }
  | .codeEnd t => .done (endCode inline isControl t st)
  | .newline _t =>
    if inline then .cont isControl st
    else .cont false
      { (writeLine st (.stmt (pyRstrip st.code.flatten))) with code := [] }

/-- One iteration of the token loop: search, then dispatch on the token. -/
def codeStep (inline : Bool) (isControl : Bool) (st : PState) : StepRes :=
  match reTokSearch st.src with
  | none => .fail
  | some (pre, tok, rest) => codeTokStep inline isControl pre tok rest st

/-- Errors of the embedding: `unterminatedCodeBlock` models the
`Exception('Non-terminated code block')` raised by `_parse_code`;
`fuelOut` is the out-of-fuel marker of the embedding, proved unreachable
for the fuel supplied by `parse` (`parse_no_fuelOut`). -/
inductive Err where
  | unterminatedCodeBlock
  | fuelOut
deriving DecidableEq

/-- The token loop of `Parser._parse_code`, driven by fuel (each
iteration consumes at least one source character, so `length + 1` fuel
suffices). -/
def parseCodeLoop (inline : Bool) : Nat → Bool → PState → Except Err PState
  | 0, _, _ => .error .fuelOut
  | fuel + 1, ic, st =>
    match codeStep inline ic st with
    | .fail => .error .unterminatedCodeBlock
    | .done st' => .ok st'
    | .cont ic' st' => parseCodeLoop inline fuel ic' st'

/-- `Parser._parse_code`: reset the code buffer (`self._code = []`) and
run the token loop with `is_control = False`. -/
def parseCode (inline : Bool) (st : PState) : Except Err PState :=
  parseCodeLoop inline (st.src.length + 1) false { st with code := [] }

/-- The split loop of `Parser.parse`: search for the next unescaped start
marker; on an escaped match, drop the escape and keep the marker text as
literal text; otherwise set the pending rstrip when the whole match ends
(after right-stripping) with the trim dash, flush the text buffer and
parse the code region.  When no marker remains, the final text is
flushed. -/
def parseLoop : Nat → PState → Except Err PState
  | 0, _ => .error .fuelOut
  | fuel + 1, st =>
    match reSplitSearch st.src with
    | none => .ok (flushText { st with text := st.text ++ [st.src] })
    | some m =>
      let st1 := { st with text := st.text ++ [m.pre], src := m.rest }
      if m.escaped then
        parseLoop fuel { st1 with text := st1.text ++ [m.marker] }
      else
        let g0 := (if m.escaped then [bslash] else []) ++ m.marker
        let st2 :=
          if (['-'] : List Char).isSuffixOf (pyRstrip g0) then
            { st1 with textRstrip := true }
          else st1
        match parseCode m.isInline (flushText st2) with
        | .error e => .error e
        | .ok st4 => parseLoop fuel st4

/-- `Parser.parse`: reset every per-call state field (text buffer, strip
flags, indentation counters) but keep the instruction list `out`, which
the constructor initialized and `parse` only appends to; return the
final `out`. -/
def parse (out0 : List OutLine) (src : List Char) : Except Err (List OutLine) :=
  (parseLoop (src.length + 1)
    { src := src, text := [], textRstrip := false, textLstrip := false
      indentCur := 0, indentMod := 0, code := [], out := out0 }).map
    (fun st => st.out)

/-- The instruction sequence built by `compile`: `compile` constructs a
fresh `Parser` (whose constructor initializes `self.out = []`) and calls
`parse` once on it, so its instruction list is that of `parse` from an
empty output list.  The wrapping of the instructions into a function
definition and the host `eval` are outside the core. -/
def compileInstrs (src : List Char) : Except Err (List OutLine) := parse [] src

/-- The instruction sequence built by `render`, which likewise constructs
a fresh `Parser` per call and calls `parse` once. -/
def renderInstrs (src : List Char) : Except Err (List OutLine) := parse [] src

/-- Modelled from the spec: host execution (§4.4 Program Builder, §4.6
Renderer) of an instruction program consisting solely of literal-append
instructions — the accumulator collects each literal in order and the
result is their concatenation.  Programs containing expression or raw
statement lines need the host evaluator, which §1 places outside the
core, so they are not executed here. -/
def execLiterals : List OutLine → Option (List Char)
  | [] => some []
  | (_, .appendLit t) :: rest => (execLiterals rest).map (fun r => t ++ r)
  | _ => none

/-- Whether a token is a block-starting or block-continuing keyword. -/
def Tok.isBlkKw : Tok → Bool
  | .blkStart _ => true
  | .blkCont _ => true
  | _ => false

/-- Map a state transformer over a step outcome. -/
def StepRes.mapState (f : PState → PState) : StepRes → StepRes
  | .cont ic st => .cont ic (f st)
  | .done st => .done (f st)
  | .fail => .fail

/-- Prefix previously emitted lines onto the output list of a state. -/
def addOut (o0 : List OutLine) (st : PState) : PState :=
  { st with out := o0 ++ st.out }

/-! ### Progress lemmas: every matched token consumes at least one character -/

theorem dropWhile_length_le (p : Char → Bool) (s : List Char) :
    (s.dropWhile p).length ≤ s.length := by
  induction s with
  | nil => simp
  | cons c r ih =>
    rw [List.dropWhile_cons]
    split
    · simp; omega
    · simp

theorem matchLit_length {p s r : List Char} (h : matchLit p s = some r) :
    r.length + p.length = s.length := by
  induction p generalizing s r with
  | nil => simp [matchLit] at h; simp [h]
  | cons a p ih =>
    cases s with
    | nil => simp [matchLit] at h
    | cons c cs =>
      simp only [matchLit] at h
      split at h
      · have := ih h; simp [this]; omega
      · exact absurd h (by simp)

theorem shortGo_length {q : Char} {f : Bool} {s b r : List Char}
    (h : shortGo q f s = some (b, r)) : r.length < s.length := by
  have main : ∀ n, ∀ {f : Bool} {s b r : List Char}, s.length ≤ n →
      shortGo q f s = some (b, r) → r.length < s.length := by
    intro n
    induction n with
    | zero =>
      intro f s b r hn h
      cases s with
      | nil => simp [shortGo] at h
      | cons c rr => simp only [List.length_cons] at hn; omega
    | succ n ih =>
      intro f s b r hn h
      cases s with
      | nil => simp [shortGo] at h
      | cons c rr =>
        rw [shortGo.eq_def] at h
        simp only [] at h
        by_cases h1 : f = false ∧ c = q
        · rw [if_pos h1] at h
          simp only [Option.some.injEq, Prod.mk.injEq] at h
          obtain ⟨-, h3⟩ := h
          subst h3; simp
        · rw [if_neg h1] at h
          by_cases h2 : c = bslash
          · rw [if_pos h2] at h
            cases rr with
            | nil => simp at h
            | cons c2 r2 =>
              by_cases h3 : c2 = '\n'
              · simp [h3] at h
              · simp only [h3, if_false, Option.map_eq_some', Prod.mk.injEq] at h
                obtain ⟨⟨b', r'⟩, hb, -, he2⟩ := h
                subst he2
                have hr2 : r2.length ≤ n := by simp at hn; omega
                have := ih hr2 hb
                simp; omega
          · rw [if_neg h2] at h
            by_cases h3 : c = q
            · rw [if_pos h3] at h; simp at h
            · rw [if_neg h3] at h
              simp only [Option.map_eq_some', Prod.mk.injEq] at h
              obtain ⟨⟨b', r'⟩, hb, -, he2⟩ := h
              subst he2
              have hrr : rr.length ≤ n := by simp at hn; omega
              have := ih hrr hb
              simp; omega
  exact main s.length le_rfl h

theorem tripleGo_length {q : Char} {f : Bool} {s b r : List Char}
    (h : tripleGo q f s = some (b, r)) : r.length < s.length := by
  have main : ∀ n, ∀ {f : Bool} {s b r : List Char}, s.length ≤ n →
      tripleGo q f s = some (b, r) → r.length < s.length := by
    intro n
    induction n with
    | zero =>
      intro f s b r hn h
      cases s with
      | nil => simp [tripleGo] at h
      | cons c rr => simp only [List.length_cons] at hn; omega
    | succ n ih =>
      intro f s b r hn h
      cases s with
      | nil => simp [tripleGo] at h
      | cons c rr =>
        rw [tripleGo.eq_def] at h
        simp only [] at h
        by_cases h1 : f = false ∧ (c :: rr).take 3 = [q, q, q]
        · rw [if_pos h1] at h
          simp only [Option.some.injEq, Prod.mk.injEq] at h
          obtain ⟨-, h3⟩ := h
          subst h3
          simp only [List.length_drop, List.length_cons]
          omega
        · rw [if_neg h1] at h
          by_cases h2 : c = bslash
          · rw [if_pos h2] at h
            cases rr with
            | nil => simp at h
            | cons c2 r2 =>
              by_cases h3 : c2 = '\n'
              · simp [h3] at h
              · simp only [h3, if_false, Option.map_eq_some', Prod.mk.injEq] at h
                obtain ⟨⟨b', r'⟩, hb, -, he2⟩ := h
                subst he2
                have hr2 : r2.length ≤ n := by simp at hn; omega
                have := ih hr2 hb
                simp; omega
          · rw [if_neg h2] at h
            simp only [Option.map_eq_some', Prod.mk.injEq] at h
            obtain ⟨⟨b', r'⟩, hb, -, he2⟩ := h
            subst he2
            have hrr : rr.length ≤ n := by simp at hn; omega
            have := ih hrr hb
            simp; omega
  exact main s.length le_rfl h

theorem quoteTok_length {s t r : List Char} (h : quoteTok s = some (t, r)) :
    r.length < s.length := by
  cases s with
  | nil => simp [quoteTok] at h
  | cons q rr =>
    simp only [quoteTok] at h
    split at h
    case isFalse => exact absurd h (by simp)
    case isTrue =>
      split at h
      case isTrue h1 =>
        simp only [Option.some.injEq, Prod.mk.injEq] at h
        obtain ⟨-, h3⟩ := h
        subst h3
        simp only [List.length_drop, List.length_cons]
        omega
      case isFalse =>
        split at h
        case isTrue h1 =>
          simp only [Option.some.injEq, Prod.mk.injEq] at h
          obtain ⟨-, h3⟩ := h
          subst h3
          simp only [List.length_drop, List.length_cons]
          omega
        case isFalse =>
          rcases h1 : shortGo q true rr with _ | ⟨b1, r1⟩
          · rw [h1] at h
            rcases h2 : matchLit [q, q] rr with _ | r3
            · rw [h2] at h; simp at h
            · rw [h2] at h
              simp only [Option.map_eq_some', Prod.mk.injEq] at h
              obtain ⟨⟨b', r'⟩, hb, -, he2⟩ := h
              have hl := tripleGo_length hb
              have hm := matchLit_length h2
              subst he2
              simp at hm ⊢
              omega
          · rw [h1] at h
            simp only [Option.some.injEq, Prod.mk.injEq] at h
            obtain ⟨-, h3⟩ := h
            have := shortGo_length h1
            subst h3
            simp; omega

theorem strTok_length {s t r : List Char} (h : strTok s = some (t, r)) :
    r.length < s.length := by
  cases s with
  | nil => simp [strTok] at h
  | cons c rr =>
    simp only [strTok] at h
    split at h
    · rcases h1 : quoteTok rr with _ | ⟨b1, r1⟩
      · rw [h1] at h; exact quoteTok_length h
      · rw [h1] at h
        simp only [Option.some.injEq, Prod.mk.injEq] at h
        obtain ⟨-, h3⟩ := h
        have := quoteTok_length h1
        subst h3
        simp; omega
    · exact quoteTok_length h

theorem comTok_length {s t r : List Char} (h : comTok s = some (t, r)) :
    r.length < s.length := by
  cases s with
  | nil => simp [comTok] at h
  | cons c rr =>
    simp only [comTok] at h
    split at h
    · simp only [Option.some.injEq, Prod.mk.injEq] at h
      obtain ⟨-, h3⟩ := h
      subst h3
      simp
      exact Nat.lt_succ_of_le (dropWhile_length_le _ _)
    · exact absurd h (by simp)

theorem kwMatch_length {kws : List (List Char)} {s t r : List Char}
    (hne : ∀ kw ∈ kws, kw ≠ []) (h : kwMatch kws s = some (t, r)) :
    r.length < s.length := by
  induction kws with
  | nil => simp [kwMatch] at h
  | cons kw kws ih =>
    simp only [kwMatch] at h
    rcases h1 : matchLit kw s with _ | r1
    · rw [h1] at h
      exact ih (fun k hk => hne k (List.mem_cons_of_mem _ hk)) h
    · rw [h1] at h
      split at h
      case h_2 heq => exact absurd heq (by simp)
      case h_1 r3 heq =>
        injection heq with he
        subst he
        split at h
        · simp only [Option.some.injEq, Prod.mk.injEq] at h
          obtain ⟨-, h3⟩ := h
          have hl := matchLit_length h1
          have hkw : kw ≠ [] := hne kw (List.mem_cons_self _ _)
          have : 0 < kw.length := List.length_pos.2 hkw
          subst h3; omega
        · exact ih (fun k hk => hne k (List.mem_cons_of_mem _ hk)) h

theorem kwTok_length {kws : List (List Char)} {s t r : List Char}
    (hne : ∀ kw ∈ kws, kw ≠ []) (h : kwTok kws s = some (t, r)) :
    r.length < s.length := by
  simp only [kwTok] at h
  rcases h1 : kwMatch kws (s.dropWhile isSpaceTab) with _ | ⟨t1, r1⟩
  · rw [h1] at h; simp at h
  · rw [h1] at h
    simp only [Option.some.injEq, Prod.mk.injEq] at h
    obtain ⟨-, h3⟩ := h
    have := kwMatch_length hne h1
    have := dropWhile_length_le isSpaceTab s
    subst h3; omega

theorem endKwCore_length {s t r : List Char} (h : endKwCore s = some (t, r)) :
    r.length < s.length := by
  simp only [endKwCore] at h
  rcases h1 : matchLit (s2l "end") (s.dropWhile isSpaceTab) with _ | r1
  · rw [h1] at h; simp at h
  · rw [h1] at h
    simp only [Option.some.injEq, Prod.mk.injEq] at h
    obtain ⟨-, h3⟩ := h
    have hl := matchLit_length h1
    have h4 := dropWhile_length_le isSpaceTab s
    have h5 := dropWhile_length_le isSpaceTab r1
    have h6 : (s2l "end").length = 3 := by decide
    subst h3; omega

theorem endKwSemi_length {s t r : List Char}
    (h : endKwSemi s = some (t, r)) : r.length < s.length := by
  cases s with
  | nil => simp [endKwSemi] at h
  | cons c rr =>
    simp only [endKwSemi] at h
    split at h
    · simp only [Option.map_eq_some', Prod.mk.injEq] at h
      obtain ⟨⟨b', r'⟩, hb, -, he2⟩ := h
      have := endKwCore_length hb
      subst he2; simp; omega
    · simp at h

theorem endKwTok_length {b : Bool} {s t r : List Char}
    (h : endKwTok b s = some (t, r)) : r.length < s.length := by
  simp only [endKwTok] at h
  split at h
  · rcases h1 : endKwCore s with _ | ⟨t1, r1⟩
    · rw [h1] at h
      exact endKwSemi_length h
    · rw [h1] at h
      simp only [Option.some.injEq, Prod.mk.injEq] at h
      obtain ⟨-, h3⟩ := h
      have := endKwCore_length h1
      subst h3; omega
  · exact endKwSemi_length h

theorem dashLit_length {p s t r : List Char} (hp : p ≠ [])
    (h : dashLit p s = some (t, r)) : r.length < s.length := by
  have hp' : 0 < p.length := List.length_pos.2 hp
  cases s with
  | nil =>
    simp only [dashLit, Option.map_eq_some', Prod.mk.injEq] at h
    obtain ⟨r', hm, -, -⟩ := h
    cases p with
    | nil => exact absurd rfl hp
    | cons a ps => simp [matchLit] at hm
  | cons c rr =>
    simp only [dashLit] at h
    split at h
    · rcases h1 : matchLit p rr with _ | rest
      · rw [h1] at h; simp at h
      · rw [h1] at h
        simp only [Option.some.injEq, Prod.mk.injEq] at h
        obtain ⟨-, h3⟩ := h
        have := matchLit_length h1
        subst h3; simp; omega
    · simp only [Option.map_eq_some', Prod.mk.injEq] at h
      obtain ⟨r', hm, -, he2⟩ := h
      have := matchLit_length hm
      subst he2; simp at this ⊢; omega

theorem cendTok_length {s t r : List Char} (h : cendTok s = some (t, r)) :
    r.length < s.length := by
  simp only [cendTok] at h
  rcases h1 : dashLit inlineEndM s with _ | ⟨t1, r1⟩
  · rw [h1] at h
    exact dashLit_length (by decide) h
  · rw [h1] at h
    simp only [Option.some.injEq, Prod.mk.injEq] at h
    obtain ⟨-, h3⟩ := h
    have := dashLit_length (p := inlineEndM) (by decide) h1
    subst h3; omega

theorem nlTok_length {s t r : List Char} (h : nlTok s = some (t, r)) :
    r.length < s.length := by
  unfold nlTok at h
  split at h <;> simp_all <;> omega

theorem tokAt_length {b : Bool} {s : List Char} {tok : Tok} {r : List Char}
    (h : tokAt b s = some (tok, r)) : r.length < s.length := by
  unfold tokAt at h
  split at h
  case h_1 t1 r1 h1 =>
    simp only [Option.some.injEq, Prod.mk.injEq] at h
    obtain ⟨-, h3⟩ := h; subst h3; exact strTok_length h1
  case h_2 =>
  split at h
  case h_1 t1 r1 h1 =>
    simp only [Option.some.injEq, Prod.mk.injEq] at h
    obtain ⟨-, h3⟩ := h; subst h3; exact comTok_length h1
  case h_2 =>
  split at h
  case h_1 t1 r1 h1 =>
    simp only [Option.some.injEq, Prod.mk.injEq] at h
    obtain ⟨-, h3⟩ := h
    subst h3
    split at h1
    · exact kwTok_length (by decide) h1
    · simp at h1
  case h_2 =>
  split at h
  case h_1 t1 r1 h1 =>
    simp only [Option.some.injEq, Prod.mk.injEq] at h
    obtain ⟨-, h3⟩ := h
    subst h3
    split at h1
    · exact kwTok_length (by decide) h1
    · simp at h1
  case h_2 =>
  split at h
  case h_1 t1 r1 h1 =>
    simp only [Option.some.injEq, Prod.mk.injEq] at h
    obtain ⟨-, h3⟩ := h; subst h3; exact endKwTok_length h1
  case h_2 =>
  split at h
  case h_1 t1 r1 h1 =>
    simp only [Option.some.injEq, Prod.mk.injEq] at h
    obtain ⟨-, h3⟩ := h; subst h3; exact cendTok_length h1
  case h_2 =>
  split at h
  case h_1 t1 r1 h1 =>
    simp only [Option.some.injEq, Prod.mk.injEq] at h
    obtain ⟨-, h3⟩ := h; subst h3; exact nlTok_length h1
  case h_2 => simp at h

theorem reTokGo_length {s : List Char} :
    ∀ {b : Bool} {acc pre : List Char} {tok : Tok} {rest : List Char},
      reTokGo b acc s = some (pre, tok, rest) → rest.length < s.length := by
  induction s with
  | nil =>
    intro b acc pre tok rest h
    simp only [reTokGo] at h
    rcases h1 : tokAt b ([] : List Char) with _ | ⟨t1, r1⟩
    · rw [h1] at h; simp at h
    · rw [h1] at h
      simp only [Option.some.injEq, Prod.mk.injEq] at h
      obtain ⟨-, -, h4⟩ := h
      subst h4; exact tokAt_length h1
  | cons c r ih =>
    intro b acc pre tok rest h
    simp only [reTokGo] at h
    rcases h1 : tokAt b (c :: r) with _ | ⟨t1, r1⟩
    · rw [h1] at h
      have := ih h
      simp; omega
    · rw [h1] at h
      simp only [Option.some.injEq, Prod.mk.injEq] at h
      obtain ⟨-, -, h4⟩ := h
      subst h4; exact tokAt_length h1

theorem reTokSearch_length {s pre : List Char} {tok : Tok} {rest : List Char}
    (h : reTokSearch s = some (pre, tok, rest)) : rest.length < s.length :=
  reTokGo_length h

theorem markerTail_length (start r : List Char) :
    (markerTail start r).2.length ≤ r.length := by
  unfold markerTail
  split
  · rename_i rr
    have := dropWhile_length_le isPySpace rr
    simp; omega
  · exact dropWhile_length_le isPySpace r

theorem markerAt_length {s g2 : List Char} {inl : Bool} {rest : List Char}
    (h : markerAt s = some (g2, inl, rest)) : rest.length < s.length := by
  unfold markerAt at h
  split at h
  case h_1 r h1 =>
    simp only [Option.some.injEq, Prod.mk.injEq] at h
    obtain ⟨-, -, h3⟩ := h
    have h4 := matchLit_length h1
    have h5 := markerTail_length inlineStartM r
    have h6 : inlineStartM.length = 2 := by decide
    subst h3; omega
  case h_2 =>
    split at h
    case h_1 r h1 =>
      simp only [Option.some.injEq, Prod.mk.injEq] at h
      obtain ⟨-, -, h3⟩ := h
      have h4 := matchLit_length h1
      have h5 := markerTail_length blockStartM r
      have h6 : blockStartM.length = 2 := by decide
      subst h3; omega
    case h_2 => exact absurd h (by simp)

theorem splitAt1_length {s : List Char} {esc : Bool} {g2 : List Char}
    {inl : Bool} {rest : List Char}
    (h : splitAt1 s = some (esc, g2, inl, rest)) : rest.length < s.length := by
  cases s with
  | nil => simp [splitAt1] at h
  | cons c rr =>
    simp only [splitAt1] at h
    split at h
    · split at h
      case h_1 m1 h1 =>
        simp only [Option.some.injEq, Prod.mk.injEq] at h
        obtain ⟨-, hm1⟩ := h
        subst hm1
        have := markerAt_length h1
        simp; omega
      case h_2 =>
        simp only [Option.map_eq_some', Prod.mk.injEq] at h
        obtain ⟨a, hm, -, ha⟩ := h
        subst ha
        have := markerAt_length hm
        omega
    · simp only [Option.map_eq_some', Prod.mk.injEq] at h
      obtain ⟨a, hm, -, ha⟩ := h
      subst ha
      have := markerAt_length hm
      omega

theorem reSplitGo_length {s : List Char} :
    ∀ {acc : List Char} {m : SplitM},
      reSplitGo acc s = some m → m.rest.length < s.length := by
  induction s with
  | nil =>
    intro acc m h
    simp [reSplitGo] at h
  | cons c r ih =>
    intro acc m h
    simp only [reSplitGo] at h
    rcases h1 : splitAt1 (c :: r) with _ | ⟨esc, g2, inl, rest⟩
    · rw [h1] at h
      have := ih h
      simp; omega
    · rw [h1] at h
      simp only [Option.some.injEq] at h
      have := splitAt1_length h1
      rw [← h]
      exact this

theorem reSplitSearch_length {s : List Char} {m : SplitM}
    (h : reSplitSearch s = some m) : m.rest.length < s.length :=
  reSplitGo_length h

/-! ### The machine never runs out of the fuel supplied by `parse` -/

theorem writeLine_src (st : PState) (b : Body) : (writeLine st b).src = st.src := rfl

theorem flushText_src (st : PState) : (flushText st).src = st.src := by
  simp only [flushText]
  repeat' split
  all_goals rfl

theorem endCode_src (inline isControl : Bool) (cend : List Char) (st : PState) :
    (endCode inline isControl cend st).src = st.src := by
  simp only [endCode]
  repeat' split
  all_goals rfl

theorem codeStep_some {inline ic : Bool} {st : PState} {pre : List Char}
    {tok : Tok} {rest : List Char}
    (h1 : reTokSearch st.src = some (pre, tok, rest)) :
    codeStep inline ic st = codeTokStep inline ic pre tok rest st := by
  unfold codeStep
  rw [h1]

theorem codeStep_cont_length {inline ic : Bool} {st : PState} {ic' : Bool}
    {st' : PState} (h : codeStep inline ic st = .cont ic' st') :
    st'.src.length < st.src.length := by
  unfold codeStep at h
  rcases h1 : reTokSearch st.src with _ | ⟨pre, tok, rest⟩
  · rw [h1] at h; simp at h
  · rw [h1] at h
    have hr := reTokSearch_length h1
    cases tok <;> simp only [codeTokStep] at h <;> (repeat' split at h) <;>
      first
        | (simp only [StepRes.cont.injEq] at h; rw [← h.2]; exact hr)
        | simp at h

theorem codeStep_done_length {inline ic : Bool} {st st' : PState}
    (h : codeStep inline ic st = .done st') :
    st'.src.length < st.src.length := by
  unfold codeStep at h
  rcases h1 : reTokSearch st.src with _ | ⟨pre, tok, rest⟩
  · rw [h1] at h; simp at h
  · rw [h1] at h
    have hr := reTokSearch_length h1
    cases tok <;> simp only [codeTokStep] at h <;> (repeat' split at h) <;>
      first
        | (simp only [StepRes.done.injEq] at h; rw [← h, endCode_src]; exact hr)
        | simp at h

theorem parseCodeLoop_ok_length {inline : Bool} :
    ∀ {fuel : Nat} {ic : Bool} {st st' : PState},
      parseCodeLoop inline fuel ic st = .ok st' →
      st'.src.length < st.src.length := by
  intro fuel
  induction fuel with
  | zero => intro ic st st' h; simp [parseCodeLoop] at h
  | succ n ih =>
    intro ic st st' h
    simp only [parseCodeLoop] at h
    split at h
    case h_1 h1 => simp at h
    case h_2 st2 h1 =>
      simp only [Except.ok.injEq] at h
      subst h
      exact codeStep_done_length h1
    case h_3 ic2 st2 h1 =>
      have := ih h
      have := codeStep_cont_length h1
      omega

theorem parseCodeLoop_no_fuelOut {inline : Bool} :
    ∀ {fuel : Nat} {ic : Bool} {st : PState}, st.src.length < fuel →
      parseCodeLoop inline fuel ic st ≠ .error .fuelOut := by
  intro fuel
  induction fuel with
  | zero => intro ic st h; omega
  | succ n ih =>
    intro ic st hlt
    intro hc
    simp only [parseCodeLoop] at hc
    split at hc
    case h_1 h1 => simp at hc
    case h_2 st2 h1 => simp at hc
    case h_3 ic2 st2 h1 =>
      have := codeStep_cont_length h1
      exact ih (by omega) hc

theorem parseCode_no_fuelOut (inline : Bool) (st : PState) :
    parseCode inline st ≠ .error .fuelOut :=
  parseCodeLoop_no_fuelOut (by simp)

theorem parseCode_ok_length {inline : Bool} {st st' : PState}
    (h : parseCode inline st = .ok st') : st'.src.length < st.src.length := by
  have := parseCodeLoop_ok_length h
  simpa using this

theorem parseLoop_no_fuelOut :
    ∀ {fuel : Nat} {st : PState}, st.src.length < fuel →
      parseLoop fuel st ≠ .error .fuelOut := by
  intro fuel
  induction fuel with
  | zero => intro st h; omega
  | succ n ih =>
    intro st hlt
    intro hc
    simp only [parseLoop] at hc
    split at hc
    case h_1 h1 => simp at hc
    case h_2 m h1 =>
      have hr := reSplitSearch_length h1
      split at hc
      · exact ih (by simp; omega) hc
      · split at hc
        case h_1 e h2 =>
          injection hc with hc'
          subst hc'
          exact parseCode_no_fuelOut _ _ h2
        case h_2 st4 h2 =>
          have h4 := parseCode_ok_length h2
          rw [flushText_src] at h4
          refine ih ?_ hc
          split at h4 <;> (simp at h4; omega)

theorem parse_no_fuelOut (o : List OutLine) (src : List Char) :
    parse o src ≠ .error .fuelOut := by
  unfold parse
  intro h
  rcases h1 : parseLoop (src.length + 1)
      { src := src, text := [], textRstrip := false, textLstrip := false,
        indentCur := 0, indentMod := 0, code := [], out := o } with e | st
  · rw [h1] at h
    have h2 : e = Err.fuelOut := by
      have : (Except.error e : Except Err PState).map (fun st => st.out) =
          (Except.error e : Except Err (List OutLine)) := rfl
      rw [this] at h
      exact (Except.error.injEq _ _).mp h
    subst h2
    exact parseLoop_no_fuelOut (by simp) h1
  · rw [h1] at h
    have : (Except.ok st : Except Err PState).map (fun st => st.out) =
        (Except.ok st.out : Except Err (List OutLine)) := rfl
    rw [this] at h
    exact absurd h (by simp)

/-! ### Line-start facts: block keywords can only be matched at position 0 -/

theorem tokAt_nil (b : Bool) : tokAt b [] = none := by cases b <;> rfl

theorem tokAt_newline (b : Bool) (r : List Char) :
    tokAt b ('\n' :: r) = some (.newline ['\n'], r) := by
  cases b <;> rfl

theorem tokAt_false_blk {s : List Char} {tok : Tok} {r : List Char}
    (h : tokAt false s = some (tok, r)) : tok.isBlkKw = false := by
  unfold tokAt at h
  split at h
  case h_1 t1 r1 h1 =>
    simp only [Option.some.injEq, Prod.mk.injEq] at h
    rw [← h.1]; rfl
  case h_2 =>
  split at h
  case h_1 t1 r1 h1 =>
    simp only [Option.some.injEq, Prod.mk.injEq] at h
    rw [← h.1]; rfl
  case h_2 =>
  simp only [if_neg (by simp : ¬(false = true))] at h
  split at h
  case h_1 t1 r1 h1 =>
    simp only [Option.some.injEq, Prod.mk.injEq] at h
    rw [← h.1]; rfl
  case h_2 =>
  split at h
  case h_1 t1 r1 h1 =>
    simp only [Option.some.injEq, Prod.mk.injEq] at h
    rw [← h.1]; rfl
  case h_2 =>
  split at h
  case h_1 t1 r1 h1 =>
    simp only [Option.some.injEq, Prod.mk.injEq] at h
    rw [← h.1]; rfl
  case h_2 => simp at h

theorem reTokGo_blk {s : List Char} :
    ∀ {b : Bool} {acc pre : List Char} {tok : Tok} {rest : List Char},
      reTokGo b acc s = some (pre, tok, rest) → tok.isBlkKw = true →
      b = true ∧ pre = acc := by
  induction s with
  | nil =>
    intro b acc pre tok rest h hblk
    rw [reTokGo] at h
    rw [tokAt_nil] at h
    simp at h
  | cons c r ih =>
    intro b acc pre tok rest h hblk
    simp only [reTokGo] at h
    rcases h1 : tokAt b (c :: r) with _ | ⟨t1, r1⟩
    · rw [h1] at h
      obtain ⟨hb, -⟩ := ih h hblk
      by_cases hc : c = '\n'
      · subst hc
        rw [tokAt_newline] at h1
        exact absurd h1 (by simp)
      · rw [show (c == '\n') = false by simp [hc]] at hb
        exact absurd hb (by simp)
    · rw [h1] at h
      simp only [Option.some.injEq, Prod.mk.injEq] at h
      obtain ⟨h2, h3, -⟩ := h
      subst h2 h3
      cases b with
      | false => exact absurd (tokAt_false_blk h1) (by simp [hblk])
      | true => exact ⟨rfl, rfl⟩

/-- When the token search returns a block-starting or block-continuing
keyword token, the skipped prefix is empty: these tokens are anchored to
`^`, which within one search can only be the start of the slice — a
newline earlier in the slice would itself have been matched first. -/
theorem reTokSearch_blk {s pre : List Char} {tok : Tok} {rest : List Char}
    (h : reTokSearch s = some (pre, tok, rest)) (hblk : tok.isBlkKw = true) :
    pre = [] :=
  (reTokGo_blk h hblk).2

/-! ### The instruction list is append-only: every transformer commutes
with prefixing lines onto `out` -/

theorem addOut_src (o0 : List OutLine) (st : PState) :
    (addOut o0 st).src = st.src := rfl

theorem writeLine_addOut (o0 : List OutLine) (st : PState) (b : Body) :
    writeLine (addOut o0 st) b = addOut o0 (writeLine st b) := by
  unfold writeLine addOut
  split <;> simp

theorem flushText_addOut (o0 : List OutLine) (st : PState) :
    flushText (addOut o0 st) = addOut o0 (flushText st) := by
  simp only [flushText, addOut]
  repeat' split
  all_goals simp_all [writeLine]
  all_goals (split <;> simp)

theorem endCode_addOut (o0 : List OutLine) (inline ic : Bool) (cend : List Char)
    (st : PState) :
    endCode inline ic cend (addOut o0 st) = addOut o0 (endCode inline ic cend st) := by
  simp only [endCode, addOut]
  repeat' split
  all_goals simp_all [writeLine]
  all_goals (split <;> simp)

theorem codeTokStep_addOut (o0 : List OutLine) (inline ic : Bool)
    (pre : List Char) (tok : Tok) (rest : List Char) (st : PState) :
    codeTokStep inline ic pre tok rest (addOut o0 st) =
      (codeTokStep inline ic pre tok rest st).mapState (addOut o0) := by
  cases tok <;> simp only [codeTokStep, addOut]
  all_goals repeat' split
  all_goals simp_all [StepRes.mapState, writeLine, endCode, addOut, List.append_assoc]
  all_goals repeat' split
  all_goals simp_all [List.append_assoc]

theorem codeStep_addOut (o0 : List OutLine) (inline ic : Bool) (st : PState) :
    codeStep inline ic (addOut o0 st) =
      (codeStep inline ic st).mapState (addOut o0) := by
  unfold codeStep
  rw [addOut_src]
  rcases h1 : reTokSearch st.src with _ | ⟨pre, tok, rest⟩
  · rfl
  · exact codeTokStep_addOut o0 inline ic pre tok rest st

theorem parseCodeLoop_addOut (o0 : List OutLine) (inline : Bool) :
    ∀ (fuel : Nat) (ic : Bool) (st : PState),
      parseCodeLoop inline fuel ic (addOut o0 st) =
        (parseCodeLoop inline fuel ic st).map (addOut o0) := by
  intro fuel
  induction fuel with
  | zero => intro ic st; rfl
  | succ n ih =>
    intro ic st
    simp only [parseCodeLoop, codeStep_addOut]
    cases h1 : codeStep inline ic st with
    | fail => rfl
    | done st2 => rfl
    | cont ic2 st2 => exact ih ic2 st2

theorem parseCode_addOut (o0 : List OutLine) (inline : Bool) (st : PState) :
    parseCode inline (addOut o0 st) = (parseCode inline st).map (addOut o0) := by
  exact parseCodeLoop_addOut o0 inline (st.src.length + 1) false
    { st with code := ([] : List (List Char)) }

theorem parseLoop_addOut (o0 : List OutLine) :
    ∀ (fuel : Nat) (st : PState),
      parseLoop fuel (addOut o0 st) = (parseLoop fuel st).map (addOut o0) := by
  intro fuel
  induction fuel with
  | zero => intro st; rfl
  | succ n ih =>
    intro st
    simp only [parseLoop]
    rw [addOut_src]
    split
    case h_1 heq =>
      show Except.ok (flushText (addOut o0 { st with text := st.text ++ [st.src] })) =
        Except.map (addOut o0)
          (Except.ok (flushText { st with text := st.text ++ [st.src] }))
      rw [flushText_addOut]
      rfl
    case h_2 m heq =>
      show (if m.escaped then
          parseLoop n (addOut o0
            { st with text := st.text ++ [m.pre] ++ [m.marker], src := m.rest })
        else
          match parseCode m.isInline (flushText
            (if (['-'] : List Char).isSuffixOf
                (pyRstrip ((if m.escaped then [bslash] else []) ++ m.marker)) then
              addOut o0 { st with text := st.text ++ [m.pre], src := m.rest, textRstrip := true }
            else addOut o0 { st with text := st.text ++ [m.pre], src := m.rest })) with
          | .error e => Except.error e
          | .ok st4 => parseLoop n st4) =
        Except.map (addOut o0) (if m.escaped then
          parseLoop n { st with text := st.text ++ [m.pre] ++ [m.marker], src := m.rest }
        else
          match parseCode m.isInline (flushText
            (if (['-'] : List Char).isSuffixOf
                (pyRstrip ((if m.escaped then [bslash] else []) ++ m.marker)) then
              { st with text := st.text ++ [m.pre], src := m.rest, textRstrip := true }
            else { st with text := st.text ++ [m.pre], src := m.rest })) with
          | .error e => Except.error e
          | .ok st4 => parseLoop n st4)
      by_cases hesc : m.escaped = true
      · simp only [if_pos hesc]
        exact ih _
      · simp only [if_neg hesc]
        by_cases hd : (['-'] : List Char).isSuffixOf
            (pyRstrip (([] : List Char) ++ m.marker)) = true
        · simp only [if_pos hd]
          rw [flushText_addOut, parseCode_addOut]
          cases h2 : parseCode m.isInline (flushText
              { st with text := st.text ++ [m.pre], src := m.rest, textRstrip := true }) with
          | error e => rfl
          | ok st4 => exact ih st4
        · simp only [if_neg hd]
          rw [flushText_addOut, parseCode_addOut]
          cases h2 : parseCode m.isInline (flushText
              { st with text := st.text ++ [m.pre], src := m.rest }) with
          | error e => rfl
          | ok st4 => exact ih st4

theorem parse_addOut (o0 : List OutLine) (src : List Char) :
    parse o0 src = (parse [] src).map (fun o => o0 ++ o) := by
  have h0 : ({ src := src, text := [], textRstrip := false, textLstrip := false, indentCur := 0, indentMod := 0, code := [], out := o0 } : PState) = addOut o0 { src := src, text := [], textRstrip := false, textLstrip := false, indentCur := 0, indentMod := 0, code := [], out := [] } := by
    simp [addOut]
  unfold parse
  rw [h0, parseLoop_addOut]
  cases h1 : parseLoop (src.length + 1) { src := src, text := [], textRstrip := false, textLstrip := false, indentCur := 0, indentMod := 0, code := [], out := ([] : List OutLine) } with
  | error e => rfl
  | ok st => rfl


/-! ### Non-negativity of the indentation counters under the
non-unindenting steps -/

theorem writeLine_indent_nonneg (st : PState) (b : Body)
    (hc : 0 ≤ st.indentCur) (hm : 0 ≤ st.indentMod) :
    0 ≤ (writeLine st b).indentCur ∧ 0 ≤ (writeLine st b).indentMod ∧
    ∀ e ∈ (writeLine st b).out, e ∈ st.out ∨ 0 ≤ e.1 := by
  unfold writeLine
  refine ⟨by simp; omega, by simp, ?_⟩
  intro e he
  simp only at he
  split at he
  · exact Or.inl he
  · rcases List.mem_append.1 he with he | he
    · exact Or.inl he
    · right
      rw [List.mem_singleton] at he
      subst he
      exact hc

theorem flushText_indent_nonneg (st : PState)
    (hc : 0 ≤ st.indentCur) (hm : 0 ≤ st.indentMod) :
    0 ≤ (flushText st).indentCur ∧ 0 ≤ (flushText st).indentMod ∧
    ∀ e ∈ (flushText st).out, e ∈ st.out ∨ 0 ≤ e.1 := by
  simp only [flushText]
  repeat' split
  all_goals
    first
      | exact ⟨hc, hm, fun e he => Or.inl he⟩
      | exact writeLine_indent_nonneg _ _ hc hm

theorem endCode_indent_nonneg (inline ic : Bool) (cend : List Char)
    (st : PState) (hc : 0 ≤ st.indentCur) (hm : 0 ≤ st.indentMod) :
    0 ≤ (endCode inline ic cend st).indentCur ∧
    0 ≤ (endCode inline ic cend st).indentMod ∧
    ∀ e ∈ (endCode inline ic cend st).out, e ∈ st.out ∨ 0 ≤ e.1 := by
  simp only [endCode]
  repeat' split
  all_goals
    first
      | exact ⟨hc, hm, fun e he => Or.inl he⟩
      | exact writeLine_indent_nonneg st (Body.stmt (pyStrip st.code.flatten)) hc hm
      | exact writeLine_indent_nonneg st (Body.appendEval (pyStrip st.code.flatten)) hc hm
      | exact writeLine_indent_nonneg st (Body.stmt (pyRstrip st.code.flatten)) hc hm

/-! ### Claim theorems -/

/-- C2: the claim states that the Token Scanner recognizes a standalone
`end` keyword only when it is bounded on the left by a line start or `;`
AND followed (after optional spaces/tabs) only by an end marker, a
statement separator, a comment, or end of line, so that identifiers
merely containing `end` (such as `endpoint`) never produce a
standalone-end token.  The left bound is enforced, but the code's
right-context lookahead `(?=(?:-?}}[ \t]*)?\r?|;|\#)` is vacuous — its
first branch is built solely from optional pieces, so it matches the
empty string everywhere and the `;` and `\#` branches are dead.  This
theorem evaluates the embedded scanner and parser at the failing input:
scanning the inline region `endpoint` emits a standalone-end token for
the first three characters, and `parse` of the template (two left braces,
`endpoint`, two right braces) consumes `end` structurally, leaving the raw
statement `point` — where the claim (and the source's own comment "only
if it stands alone") requires the whole identifier to stay intact. -/
theorem endpoint_triggers_end_token :
    reTokSearch (s2l "endpoint" ++ inlineEndM) =
      some ([], .endKw (s2l "end"), s2l "point" ++ inlineEndM) ∧
    parse [] (inlineStartM ++ s2l "endpoint" ++ inlineEndM) =
      .ok [(0, .stmt (s2l "point"))] :=
  ⟨rfl, rfl⟩

/-- C6 counterexample: the claim states `indentCurrent` never goes
negative and in particular is non-negative whenever an instruction line
is emitted.  For the source consisting of an inline `end` region followed
by the literal `x`, the standalone-end token decrements the pending
indentation, the region end folds it into `indentCur` (reaching −1), and
the final literal flush emits its `AppendLiteral` instruction at
indentation level −1. -/
theorem indent_goes_negative :
    parse [] (inlineStartM ++ s2l "end" ++ inlineEndM ++ ['x']) =
      .ok [(-1, .appendLit ['x'])] :=
  rfl

/-- C9: the region-end token alternative `(-?}} | -?%>)` of the scanner
matches both configured end markers, and `_parse_code` closes the region
on any `_cend` token without checking its kind; only the
comment-termination path compares against the region's own end marker
(`_com.endswith(code_end)`).  Concretely: an inline region is closed by
`%>` and a block region by the inline end marker; an inline region whose
`%>` lies inside a comment is NOT closed (unterminated, because the
comment is compared against the inline end marker), while a comment
ending with the region's own marker does close it, and symmetrically for
a block region. -/
theorem either_end_marker_closes_region :
    parse [] (inlineStartM ++ s2l "x%>") = .ok [(0, .appendEval ['x'])] ∧
    parse [] (s2l "<%x = 1" ++ inlineEndM) = .ok [(0, .stmt (s2l "x = 1"))] ∧
    parse [] (inlineStartM ++ s2l "# x%>") = .error .unterminatedCodeBlock ∧
    parse [] (inlineStartM ++ s2l "# x" ++ inlineEndM) = .ok [] ∧
    parse [] (s2l "<%# x" ++ inlineEndM) = .error .unterminatedCodeBlock ∧
    parse [] (s2l "<%# x%>") = .ok [] :=
  ⟨rfl, rfl, rfl, rfl, rfl, rfl⟩

/-- C4: a trailing trim marker on a region start marker sets
`rstripPending` so that the (single) following literal flush strips the
whitespace — newlines included — adjacent to the marker, and a leading
trim marker on a region end marker sets `lstripPending` so that the next
literal flush strips the whitespace after the marker; each pending strip
is consumed by exactly one flush (the flush always resets both flags) and
does not persist to later flushes.  The first conjunct is the exact
behaviour of `_flush_text` on any state; the remaining conjuncts evaluate
`parse` end to end: the docstring loop template (trim on both sides
removes the inter-iteration whitespace, newlines included), a template
whose rstrip must not leak into the following flush (` b ` stays
untouched), and a template whose lstrip must not leak (` c` stays
untouched). -/
theorem trim_flags_strip_once :
    (∀ st : PState,
      (flushText st).textRstrip = false ∧ (flushText st).textLstrip = false ∧
      (flushText st).text = [] ∧
      (flushText st).out = st.out ++
        (if ((if st.textLstrip then pyLstrip else id)
              ((if st.textRstrip then pyRstrip else id) st.text.flatten)).isEmpty
         then []
         else [(st.indentCur,
            Body.appendLit ((if st.textLstrip then pyLstrip else id)
              ((if st.textRstrip then pyRstrip else id) st.text.flatten)))])) ∧
    parse [] (s2l "\x7b\x7b for x in range(10): -\x7d\x7d\n    \x7b\x7bx\x7d\x7d\n\x7b\x7b-end\x7d\x7d") =
      .ok [(0, .stmt (s2l "for x in range(10):")), (1, .appendEval ['x'])] ∧
    parse [] (s2l "a \x7b\x7b-1\x7d\x7d b \x7b\x7b2\x7d\x7d") =
      .ok [(0, .appendLit ['a']), (0, .appendEval ['1']),
           (0, .appendLit (s2l " b ")), (0, .appendEval ['2'])] ∧
    parse [] (s2l "\x7b\x7b1-\x7d\x7d b \x7b\x7b2\x7d\x7d c") =
      .ok [(0, .appendEval ['1']), (0, .appendLit (s2l "b ")),
           (0, .appendEval ['2']), (0, .appendLit (s2l " c"))] := by
  refine ⟨fun st => ?_, rfl, rfl, rfl⟩
  unfold flushText writeLine
  repeat' split
  all_goals simp_all [bodyIsEmptyLine]
  all_goals (repeat' split)
  all_goals simp_all
  all_goals (rename_i hex hall; obtain ⟨x, hx, hnx⟩ := hex; exact absurd (hall x hx) hnx)

/-- C8: an escaped start marker opens no region — the escape character is
dropped, the literal marker text of group 2 (including any attached trim
marker and the whitespace it consumed) is appended to the text buffer,
and the split loop resumes past the match without flushing or touching
the strip flags, the indentation counters or the output; concretely,
`parse` of backslash `<%x = 42%>` yields the single literal-append
instruction `<%x = 42%>`, and the spec-modelled host execution of that
literal program returns the string `<%x = 42%>` (the render equality of
the claim). -/
theorem escaped_marker_stays_literal :
    (∀ (fuel : Nat) (st : PState) (m : SplitM),
      reSplitSearch st.src = some m → m.escaped = true →
      parseLoop (fuel + 1) st =
        parseLoop fuel { st with src := m.rest, text := st.text ++ [m.pre, m.marker] }) ∧
    parse [] (bslash :: s2l "<%x = 42%>") = .ok [(0, .appendLit (s2l "<%x = 42%>"))] ∧
    execLiterals [(0, .appendLit (s2l "<%x = 42%>"))] = some (s2l "<%x = 42%>") := by
  refine ⟨fun fuel st m h hesc => ?_, rfl, rfl⟩
  simp only [parseLoop]
  split
  case h_1 heq => rw [h] at heq; exact absurd heq (by simp)
  case h_2 m' heq =>
    rw [h] at heq
    injection heq with heq'
    subst heq'
    simp only [if_pos hesc]
    congr 1
    simp [List.append_assoc]

/-- Witness for C8's universally quantified conjunct: one escaped-marker
step on the concrete source backslash-brace-brace-`a`. -/
theorem escaped_marker_stays_literal_witness :
    parseLoop (4 + 1) { src := bslash :: lbrace :: lbrace :: ['a'], text := [], textRstrip := false, textLstrip := false, indentCur := 0, indentMod := 0, code := [], out := [] } =
      parseLoop 4 { src := ['a'], text := [[], [lbrace, lbrace]], textRstrip := false, textLstrip := false, indentCur := 0, indentMod := 0, code := [], out := [] } :=
  escaped_marker_stays_literal.1 4
    { src := bslash :: lbrace :: lbrace :: ['a'], text := [], textRstrip := false, textLstrip := false, indentCur := 0, indentMod := 0, code := [], out := [] }
    ⟨[], true, [lbrace, lbrace], true, ['a']⟩ rfl rfl

/-- C10: `parse` resets the per-call state at entry but only ever appends
to the instruction list `out` (initialized in the constructor), so two
consecutive `parse` calls on the same instance leave `out` equal to the
concatenation of the two instruction sequences; `compile` and `render`
each construct a fresh `Parser` per call, so their instruction sequences
are those of `parse` from an empty output list. -/
theorem out_accumulates_across_parses :
    (∀ (s1 s2 : List Char) (o1 o2 : List OutLine),
      parse [] s1 = .ok o1 → parse [] s2 = .ok o2 →
      parse o1 s2 = .ok (o1 ++ o2)) ∧
    (∀ s, compileInstrs s = parse [] s) ∧
    (∀ s, renderInstrs s = parse [] s) := by
  refine ⟨fun s1 s2 o1 o2 h1 h2 => ?_, fun s => rfl, fun s => rfl⟩
  rw [parse_addOut, h2]
  rfl

/-- Witness for C10: parsing `a` then `b` on the same instance leaves
both literal-append instructions in order. -/
theorem out_accumulates_across_parses_witness :
    parse [(0, Body.appendLit ['a'])] ['b'] =
      .ok [(0, .appendLit ['a']), (0, .appendLit ['b'])] :=
  out_accumulates_across_parses.1 ['a'] ['b'] [(0, .appendLit ['a'])]
    [(0, .appendLit ['b'])] rfl rfl

/-- C5: in an inline region a block-continuing keyword token decrements
`indentCur` immediately and additionally increments `indentMod`; a
block-starting keyword token only increments `indentMod`; a standalone
end token decrements `indentMod` (its text is not appended to the code
buffer); and indentation changes are deferred: `_write_line` emits every
line at the `indentCur` current at emission, after which `indentMod` is
folded into `indentCur` and reset to zero.  The keyword clauses hold
unconditionally because the prefix before a keyword token is always blank
(`reTokSearch_blk`), so the ordinary-code guard never redirects them. -/
theorem inline_indent_deltas :
    (∀ (ic : Bool) (st : PState) (pre t rest : List Char),
      reTokSearch st.src = some (pre, .blkCont t, rest) →
      codeStep true ic st = .cont true { st with src := rest, code := st.code ++ [pre, t], indentCur := st.indentCur - 1, indentMod := st.indentMod + 1 }) ∧
    (∀ (ic : Bool) (st : PState) (pre t rest : List Char),
      reTokSearch st.src = some (pre, .blkStart t, rest) →
      codeStep true ic st = .cont true { st with src := rest, code := st.code ++ [pre, t], indentMod := st.indentMod + 1 }) ∧
    (∀ (ic : Bool) (st : PState) (pre t rest : List Char),
      reTokSearch st.src = some (pre, .endKw t, rest) →
      codeStep true ic st = .cont true { st with src := rest, code := st.code ++ [pre], indentMod := st.indentMod - 1 }) ∧
    (∀ (st : PState) (b : Body),
      writeLine st b = { st with out := if bodyIsEmptyLine b then st.out else st.out ++ [(st.indentCur, b)], indentCur := st.indentCur + st.indentMod, indentMod := 0 }) := by
  refine ⟨fun ic st pre t rest h => ?_, fun ic st pre t rest h => ?_,
    fun ic st pre t rest h => ?_, fun st b => rfl⟩
  · have hpre : pre = [] := reTokSearch_blk h rfl
    subst hpre
    rw [codeStep_some h]
    simp only [codeTokStep]
    rw [if_neg (by simp [List.getLastD_concat, pyStrip, pyLstrip, pyRstrip])]
    simp [List.append_assoc]
  · have hpre : pre = [] := reTokSearch_blk h rfl
    subst hpre
    rw [codeStep_some h]
    simp only [codeTokStep]
    rw [if_neg (by simp [List.getLastD_concat, pyStrip, pyLstrip, pyRstrip])]
    simp [List.append_assoc]
  · rw [codeStep_some h]
    simp [codeTokStep]

/-- Witness for C5: one block-continuing step (`else`), one
block-starting step (`if`), and one standalone-end step (after `;`),
each from a concrete inline-region state. -/
theorem inline_indent_deltas_witness :
    codeStep true false { src := s2l "else:" ++ inlineEndM, text := [], textRstrip := false, textLstrip := false, indentCur := 0, indentMod := 0, code := [], out := [] } =
      .cont true { src := s2l ":" ++ inlineEndM, text := [], textRstrip := false, textLstrip := false, indentCur := -1, indentMod := 1, code := [[], s2l "else"], out := [] } ∧
    codeStep true false { src := s2l "if x:" ++ inlineEndM, text := [], textRstrip := false, textLstrip := false, indentCur := 0, indentMod := 0, code := [], out := [] } =
      .cont true { src := s2l " x:" ++ inlineEndM, text := [], textRstrip := false, textLstrip := false, indentCur := 0, indentMod := 1, code := [[], s2l "if"], out := [] } ∧
    codeStep true false { src := 'x' :: ';' :: (s2l "end" ++ inlineEndM), text := [], textRstrip := false, textLstrip := false, indentCur := 0, indentMod := 0, code := [], out := [] } =
      .cont true { src := inlineEndM, text := [], textRstrip := false, textLstrip := false, indentCur := 0, indentMod := -1, code := [['x']], out := [] } :=
  ⟨inline_indent_deltas.1 false _ [] (s2l "else") (s2l ":" ++ inlineEndM) rfl,
   inline_indent_deltas.2.1 false _ [] (s2l "if") (s2l " x:" ++ inlineEndM) rfl,
   inline_indent_deltas.2.2.1 false _ ['x'] (';' :: s2l "end") inlineEndM rfl⟩

/-- C7 counterexample: the claim states that every comment token appends
its raw text to the code buffer.  In the source, a comment whose trimmed
text does not end with the region's end marker is silently discarded —
the `elif _com:` branch has no else and appends nothing.  Concretely, one
scanner step on the block-region text `# c` newline `x%>` consumes the
comment and leaves the code buffer holding only the empty prefix (the
comment text `# c` is gone), and the parsed template `<%# c` newline
`x%>` compiles to the single raw statement `x`, with no trace of the
comment (the claim's reading would put `# c` in the emitted code). -/
theorem comment_token_discarded :
    codeStep false false { src := s2l "# c\nx%>", text := [], textRstrip := false, textLstrip := false, indentCur := 0, indentMod := 0, code := [], out := [] } =
      .cont false { src := s2l "\nx%>", text := [], textRstrip := false, textLstrip := false, indentCur := 0, indentMod := 0, code := [[]], out := [] } ∧
    parse [] (s2l "<%# c\nx%>") = .ok [(0, .stmt ['x'])] :=
  ⟨rfl, rfl⟩

/-- C7 as amended: a string-literal token appends its raw text to the
code buffer; a comment token whose right-trimmed text ends with the
region's own end marker terminates the region, routing to region-end
handling with the last `len(end marker) + 1` characters of the trimmed
comment as the end-marker text (so a trim dash immediately before the
marker is honored); any other comment token is discarded — only the
skipped prefix reaches the code buffer.  The final conjunct shows a
trim-carrying comment termination end to end: `x # c -` inline-end,
newline, `z` yields the expression-append of `x` and the literal `z`
with the intervening newline stripped. -/
theorem string_appends_comment_may_close :
    (∀ (inline ic : Bool) (st : PState) (pre t rest : List Char),
      reTokSearch st.src = some (pre, .pystr t, rest) →
      codeStep inline ic st = .cont ic { st with src := rest, code := st.code ++ [pre, t] }) ∧
    (∀ (inline ic : Bool) (st : PState) (pre t rest : List Char),
      reTokSearch st.src = some (pre, .comment t, rest) →
      (if inline then inlineEndM else blockEndM).isSuffixOf (pyRstrip t) = false →
      codeStep inline ic st = .cont ic { st with src := rest, code := st.code ++ [pre] }) ∧
    (∀ (inline ic : Bool) (st : PState) (pre t rest : List Char),
      reTokSearch st.src = some (pre, .comment t, rest) →
      (if inline then inlineEndM else blockEndM).isSuffixOf (pyRstrip t) = true →
      codeStep inline ic st = .done (endCode inline ic
        ((pyRstrip t).drop ((pyRstrip t).length -
          ((if inline then inlineEndM else blockEndM).length + 1)))
        { st with src := rest, code := st.code ++ [pre] })) ∧
    parse [] (s2l "\x7b\x7bx # c -\x7d\x7d\nz") =
      .ok [(0, .appendEval ['x']), (0, .appendLit ['z'])] := by
  refine ⟨fun inline ic st pre t rest h => ?_, fun inline ic st pre t rest h hs => ?_,
    fun inline ic st pre t rest h hs => ?_, rfl⟩
  · rw [codeStep_some h]
    simp [codeTokStep, List.append_assoc]
  · rw [codeStep_some h]
    simp only [codeTokStep]
    rw [if_neg (by simp [hs])]
  · rw [codeStep_some h]
    simp only [codeTokStep]
    rw [if_pos hs]

/-- Witness for C7's amended clauses: a string token step, a discarded
comment step, and an own-marker comment termination step, at concrete
states. -/
theorem string_appends_comment_may_close_witness :
    codeStep true false { src := squote :: 'a' :: squote :: inlineEndM, text := [], textRstrip := false, textLstrip := false, indentCur := 0, indentMod := 0, code := [], out := [] } =
      .cont false { src := inlineEndM, text := [], textRstrip := false, textLstrip := false, indentCur := 0, indentMod := 0, code := [[], [squote, 'a', squote]], out := [] } ∧
    codeStep false false { src := s2l "# q\n%>", text := [], textRstrip := false, textLstrip := false, indentCur := 0, indentMod := 0, code := [], out := [] } =
      .cont false { src := s2l "\n%>", text := [], textRstrip := false, textLstrip := false, indentCur := 0, indentMod := 0, code := [[]], out := [] } ∧
    codeStep false false { src := s2l "# q%>", text := [], textRstrip := false, textLstrip := false, indentCur := 0, indentMod := 0, code := [], out := [] } =
      .done (endCode false false (s2l "q%>") { src := [], text := [], textRstrip := false, textLstrip := false, indentCur := 0, indentMod := 0, code := [[]], out := [] }) :=
  ⟨string_appends_comment_may_close.1 true false _ [] [squote, 'a', squote] inlineEndM rfl,
   string_appends_comment_may_close.2.1 false false _ [] (s2l "# q") (s2l "\n%>") rfl rfl,
   string_appends_comment_may_close.2.2.1 false false _ [] (s2l "# q%>") [] rfl rfl⟩

/-- C3 counterexample: the claim states that whenever the scanner matches
a block keyword but the code already accumulated for the current line is
non-empty and not all whitespace, the keyword is NOT structural (text
appended as ordinary code, no indentation change, `is_control` not set).
At the concrete state below the accumulated code is the non-blank string
literal (quote,`a`,quote), yet when the scanner matches the keyword
token ` if` the step sets `is_control` to true and increments
`indentMod` — the structural path; the guard never fires because it
tests only the freshly appended (always empty) prefix fragment.  At
parse level the region quote-`a`-quote` if b else c` consequently emits
a `RawStatementLine`, not the expression-append the claim implies. -/
theorem keyword_structural_despite_nonblank_code :
    codeStep true false { src := s2l " if b else c" ++ inlineEndM, text := [], textRstrip := false, textLstrip := false, indentCur := 0, indentMod := 0, code := [[], [squote, 'a', squote]], out := [] } =
      .cont true { src := s2l " b else c" ++ inlineEndM, text := [], textRstrip := false, textLstrip := false, indentCur := 0, indentMod := 1, code := [[], [squote, 'a', squote], [], s2l " if"], out := [] } ∧
    parse [] (inlineStartM ++ (squote :: 'a' :: squote :: s2l " if b else c") ++ inlineEndM) =
      .ok [(0, .stmt (squote :: 'a' :: squote :: s2l " if b else c"))] :=
  ⟨rfl, rfl⟩

/-- C3 as amended: the ordinary-code guard compares only the last code
fragment, which is the prefix skipped before the keyword token; that
prefix is always empty, because keyword tokens only match at the start
of the searched slice (a newline earlier in the slice would be matched
first), so the guard never fires and a matched keyword token is always
structural.  Mid-line keywords are never tokenized at all thanks to the
same line-start anchor, which is what keeps `1 if True else 2` one
expression: parsing the inline template yields exactly one
expression-append of `1 if True else 2` (so `render` returns `"1"` once
the host evaluator computes the conditional expression). -/
theorem keyword_guard_vacuous :
    (∀ (st : PState) (pre : List Char) (tok : Tok) (rest : List Char),
      reTokSearch st.src = some (pre, tok, rest) → tok.isBlkKw = true →
      pre = [] ∧ pyStrip ((st.code ++ [pre]).getLastD []) = []) ∧
    parse [] (inlineStartM ++ s2l "1 if True else 2" ++ inlineEndM) =
      .ok [(0, .appendEval (s2l "1 if True else 2"))] := by
  refine ⟨fun st pre tok rest h hblk => ?_, rfl⟩
  have hpre : pre = [] := reTokSearch_blk h hblk
  subst hpre
  exact ⟨rfl, by simp [List.getLastD_concat, pyStrip, pyLstrip, pyRstrip]⟩

/-- Witness for C3's amended clause: the keyword token of the inline
region `if x:` has an empty prefix, and the guard's test string is
blank, even though the buffer already holds accumulated code `y`. -/
theorem keyword_guard_vacuous_witness :
    ([] : List Char) = [] ∧
      pyStrip ((([['y']] : List (List Char)) ++ [[]]).getLastD []) = [] :=
  keyword_guard_vacuous.1
    { src := s2l "if x:" ++ inlineEndM, text := [], textRstrip := false, textLstrip := false, indentCur := 0, indentMod := 0, code := [['y']], out := [] }
    [] (.blkStart (s2l "if")) (s2l " x:" ++ inlineEndM) rfl rfl

/-- C6 as amended: `indentCur` starts at zero and, together with
`indentMod`, remains non-negative across every literal flush, every line
emission, and every code-region token step other than a standalone-end
or block-continuing keyword token; every newly emitted instruction
carries a non-negative level under these hypotheses.  With standalone-end
(or block-continuing) tokens `indentCur` can go negative — see this
claim's counterexample, where an instruction is emitted at level −1. -/
theorem indent_nonneg_without_unindent_tokens :
    (∀ (st : PState) (b : Body), 0 ≤ st.indentCur → 0 ≤ st.indentMod →
      0 ≤ (writeLine st b).indentCur ∧ 0 ≤ (writeLine st b).indentMod ∧
      ∀ e ∈ (writeLine st b).out, e ∈ st.out ∨ 0 ≤ e.1) ∧
    (∀ st : PState, 0 ≤ st.indentCur → 0 ≤ st.indentMod →
      0 ≤ (flushText st).indentCur ∧ 0 ≤ (flushText st).indentMod ∧
      ∀ e ∈ (flushText st).out, e ∈ st.out ∨ 0 ≤ e.1) ∧
    (∀ (inline ic : Bool) (st : PState) (pre : List Char) (tok : Tok)
        (rest : List Char) (ic' : Bool) (st' : PState),
      reTokSearch st.src = some (pre, tok, rest) →
      (∀ t, tok ≠ .endKw t) → (∀ t, tok ≠ .blkCont t) →
      0 ≤ st.indentCur → 0 ≤ st.indentMod →
      (codeStep inline ic st = .cont ic' st' ∨ codeStep inline ic st = .done st') →
      0 ≤ st'.indentCur ∧ 0 ≤ st'.indentMod ∧
      ∀ e ∈ st'.out, e ∈ st.out ∨ 0 ≤ e.1) := by
  refine ⟨fun st b => writeLine_indent_nonneg st b,
    fun st => flushText_indent_nonneg st, ?_⟩
  intro inline ic st pre tok rest ic' st' h hend hcont hc hm hor
  rw [codeStep_some h] at hor
  cases tok with
  | endKw t => exact absurd rfl (hend t)
  | blkCont t => exact absurd rfl (hcont t)
  | pystr t =>
    simp only [codeTokStep] at hor
    rcases hor with hor | hor
    · simp only [StepRes.cont.injEq] at hor
      obtain ⟨-, h2⟩ := hor
      subst h2
      exact ⟨hc, hm, fun e he => Or.inl he⟩
    · simp at hor
  | blkStart t =>
    simp only [codeTokStep] at hor
    rcases hor with hor | hor
    · split at hor
      · simp only [StepRes.cont.injEq] at hor
        obtain ⟨-, h2⟩ := hor
        subst h2
        exact ⟨hc, hm, fun e he => Or.inl he⟩
      · simp only [StepRes.cont.injEq] at hor
        obtain ⟨-, h2⟩ := hor
        subst h2
        refine ⟨hc, ?_, fun e he => Or.inl he⟩
        show (0 : Int) ≤ if inline then st.indentMod + 1 else st.indentMod
        split <;> omega
    · split at hor <;> simp at hor
  | comment t =>
    simp only [codeTokStep] at hor
    rcases hor with hor | hor
    · repeat' split at hor
      all_goals
        first
          | (simp only [StepRes.cont.injEq] at hor
             obtain ⟨-, h2⟩ := hor
             subst h2
             exact ⟨hc, hm, fun e he => Or.inl he⟩)
          | simp at hor
    · repeat' split at hor
      all_goals
        first
          | (simp only [StepRes.done.injEq] at hor
             subst hor
             exact endCode_indent_nonneg _ _ _ _ hc hm)
          | simp at hor
  | codeEnd t =>
    simp only [codeTokStep] at hor
    rcases hor with hor | hor
    · simp at hor
    · simp only [StepRes.done.injEq] at hor
      subst hor
      exact endCode_indent_nonneg _ _ _ _ hc hm
  | newline t =>
    simp only [codeTokStep] at hor
    rcases hor with hor | hor
    · split at hor
      · simp only [StepRes.cont.injEq] at hor
        obtain ⟨-, h2⟩ := hor
        subst h2
        exact ⟨hc, hm, fun e he => Or.inl he⟩
      · simp only [StepRes.cont.injEq] at hor
        obtain ⟨-, h2⟩ := hor
        subst h2
        exact writeLine_indent_nonneg
          { st with code := st.code ++ [pre], src := rest }
          (Body.stmt (pyRstrip ((st.code ++ [pre]).flatten))) hc hm
    · split at hor <;> simp at hor

/-- Witness for C6's amended clauses: a region-end token step from a
concrete inline state emits the expression-append of `x` at level 0 and
keeps both counters at 0. -/
theorem indent_nonneg_without_unindent_tokens_witness :
    0 ≤ ({ src := [], text := [], textRstrip := false, textLstrip := false, indentCur := 0, indentMod := 0, code := [], out := [((0 : Int), Body.appendEval ['x'])] } : PState).indentCur ∧
    0 ≤ ({ src := [], text := [], textRstrip := false, textLstrip := false, indentCur := 0, indentMod := 0, code := [], out := [((0 : Int), Body.appendEval ['x'])] } : PState).indentMod ∧
    ∀ e ∈ ({ src := [], text := [], textRstrip := false, textLstrip := false, indentCur := 0, indentMod := 0, code := [], out := [((0 : Int), Body.appendEval ['x'])] } : PState).out,
      e ∈ ({ src := 'x' :: inlineEndM, text := [], textRstrip := false, textLstrip := false, indentCur := 0, indentMod := 0, code := [], out := [] } : PState).out ∨ 0 ≤ e.1 :=
  indent_nonneg_without_unindent_tokens.2.2 true false
    { src := 'x' :: inlineEndM, text := [], textRstrip := false, textLstrip := false, indentCur := 0, indentMod := 0, code := [], out := [] }
    ['x'] (.codeEnd inlineEndM) [] false
    { src := [], text := [], textRstrip := false, textLstrip := false, indentCur := 0, indentMod := 0, code := [], out := [((0 : Int), Body.appendEval ['x'])] }
    rfl (fun t hx => Tok.noConfusion hx) (fun t hx => Tok.noConfusion hx)
    (by decide) (by decide) (Or.inr rfl)

/-- Helper for C1: when the token search exhausts the remaining region
text without a match, `_parse_code` raises the unterminated-code-block
error. -/
theorem parseCode_unterminated (inline : Bool) (st : PState)
    (h : reTokSearch st.src = none) :
    parseCode inline st = .error .unterminatedCodeBlock := by
  unfold parseCode
  simp only [parseCodeLoop]
  have hstep : codeStep inline false { st with code := ([] : List (List Char)) } = .fail := by
    unfold codeStep
    rw [show ({ st with code := ([] : List (List Char)) } : PState).src = st.src from rfl, h]
  rw [hstep]

/-- C1: when an unescaped start marker opens a code region and the token
scanner exhausts the remaining input without matching an end-of-region
token, `_parse_code` raises the unterminated-code-block error (modelling
`Exception('Non-terminated code block')`) and `parse` propagates it,
returning the error and no truncated instruction sequence.  The first
conjunct covers any region state whose remaining text admits no token;
the second conjunct is the claim's "in particular": a source that opens
an inline region whose remaining text admits no token (for instance no
end marker before the end of the source) makes the whole `parse` fail —
the head condition only excludes whitespace or a trim dash directly
after the marker, which the split regex would have consumed into the
marker match. -/
theorem unterminated_region_raises :
    (∀ (inline : Bool) (st : PState), reTokSearch st.src = none →
      parseCode inline st = .error .unterminatedCodeBlock) ∧
    (∀ (out0 : List OutLine) (s : List Char),
      reTokSearch s = none →
      (s.head?.all fun c => !(isPySpace c) && !(c == '-')) = true →
      parse out0 (lbrace :: lbrace :: s) = .error .unterminatedCodeBlock) := by
  refine ⟨fun inline st h => parseCode_unterminated inline st h, ?_⟩
  intro out0 s h hh
  have hmt : markerTail inlineStartM s = (inlineStartM, s) := by
    cases s with
    | nil => rfl
    | cons c cs =>
      have hh2 : (!(isPySpace c) && !(c == '-')) = true := hh
      simp only [Bool.and_eq_true, Bool.not_eq_true'] at hh2
      unfold markerTail
      split
      case h_1 rr heq =>
        injection heq with h1 h2
        subst h1
        simp at hh2
      case h_2 =>
        rw [List.takeWhile_cons, List.dropWhile_cons]
        rw [hh2.1]
        simp
  have h1 : splitAt1 (lbrace :: lbrace :: s) = some (false, inlineStartM, true, s) := by
    show Option.map (fun m => (false, m))
        (some ((markerTail inlineStartM s).1, true, (markerTail inlineStartM s).2)) =
      some (false, inlineStartM, true, s)
    rw [hmt]
    rfl
  have hsplit : reSplitSearch (lbrace :: lbrace :: s) =
      some ⟨[], false, inlineStartM, true, s⟩ := by
    unfold reSplitSearch
    rw [reSplitGo, h1]
  have hpc := parseCode_unterminated true
    (flushText { src := s, text := [[]], textRstrip := false, textLstrip := false, indentCur := 0, indentMod := 0, code := [], out := out0 })
    (by rw [flushText_src]; exact h)
  unfold parse
  simp only [List.length_cons, parseLoop]
  rw [hsplit]
  show Except.map (fun st => st.out)
      (match parseCode true (flushText { src := s, text := [[]], textRstrip := false, textLstrip := false, indentCur := 0, indentMod := 0, code := [], out := out0 }) with
        | .error e => Except.error e
        | .ok st4 => parseLoop (s.length + 1 + 1) st4) = .error .unterminatedCodeBlock
  rw [hpc]
  rfl

/-- Witness for C1: the template consisting of an inline start marker
followed by the single letter `x` (no end marker) fails to parse, and
the corresponding region state fails in `_parse_code`. -/
theorem unterminated_region_raises_witness :
    parse [] (lbrace :: lbrace :: ['x']) = .error .unterminatedCodeBlock ∧
    parseCode true { src := ['x'], text := [], textRstrip := false, textLstrip := false, indentCur := 0, indentMod := 0, code := [], out := [] } = .error .unterminatedCodeBlock :=
  ⟨unterminated_region_raises.2 [] ['x'] rfl rfl,
   unterminated_region_raises.1 true _ rfl⟩

end Tempy
